import Mathlib

/-!
Shallow embedding of the overlap-graph longest-path program (src/main.cpp).

`Graph` models the C++ `unordered_map<string, vector<string>> adj_list` as an
association list; the key order of the hash map is unspecified in C++, so the
association-list order stands in for one admissible order, and theorems that
could depend on it quantify over the order instead.
-/

/-- The leading 2 characters of a code (C++ `s.substr(0, 2)`). -/
def first2 (s : String) : String := s.take 2

/-- The leading 4 characters of a code (C++ `s.substr(0, 4)`). -/
def first4 (s : String) : String := s.take 4

/-- The trailing 2 characters of a code (C++ `s.substr(s.size() - 2)`). -/
def last2 (s : String) : String := s.drop (s.length - 2)

/-- Adjacency list: the C++ `unordered_map<string, vector<string>>`. -/
abbrev Graph := List (String × List String)

/-- `Graph::add_edge`: `adj_list[from].push_back(to)` — appends `t` to the
neighbor vector of `f`, creating the entry if absent. -/
def add_edge : Graph → String → String → Graph
  | [], f, t => [(f, [t])]
  | (k, vs) :: rest, f, t =>
    if k = f then (k, vs ++ [t]) :: rest
    else (k, vs) :: add_edge rest f t

/-- `Graph::build_graph`: for every ordered occurrence pair `(from, to)` of the
input with `from != to` and `last2 from = first2 to`, add an edge. -/
def build_graph (numbers : List String) : Graph :=
  numbers.foldl
    (fun g fr =>
      numbers.foldl
        (fun g2 t => if fr ≠ t ∧ last2 fr = first2 t then add_edge g2 fr t else g2)
        g)
    []

/-- `Graph::get_neighbors`: neighbor list of `v`, empty if `v` is unknown. -/
def get_neighbors (g : Graph) (v : String) : List String :=
  match g.find? (fun p => p.1 == v) with
  | some p => p.2
  | none => []

/-- `Graph::get_vertices`: the keys of the adjacency list. -/
def get_vertices (g : Graph) : List String := g.map (fun p => p.1)

/-- The mutable result state of `LongestPath`: `max_length` and
`longest_paths`. -/
structure SearchRes where
  max_length : Nat
  longest_paths : List (List String)
deriving DecidableEq, Repr

/-- The update rule at the top of `LongestPath::dfs`: a strictly longer path
replaces the collection, a tie is appended. -/
def record_path (path : List String) (res : SearchRes) : SearchRes :=
  if res.max_length < path.length then
    SearchRes.mk path.length [path]
  else if path.length = res.max_length then
    SearchRes.mk res.max_length (res.longest_paths ++ [path])
  else res

/-- `LongestPath::dfs`, functional form. `visited` is the set of marked
vertices (in the C++ code `visited[v]` is set on entry and cleared on exit, so
at any moment it holds exactly the vertices of the call chain); `path` is
`current_path` before pushing `current`. The C++ recursion has no fuel; `fuel`
bounds the depth and is chosen large enough that it is never exhausted. -/
def dfs (g : Graph) : Nat → String → List String → List String → SearchRes → SearchRes
  | 0, _, _, _, res => res
  | fuel + 1, current, visited, path, res =>
    (get_neighbors g current).foldl
      (fun r n =>
        if n ∈ current :: visited then r
        else dfs g fuel n (current :: visited) (path ++ [current]) r)
      (record_path (path ++ [current]) res)

/-- An upper bound on the number of distinct vertices of `g`, plus one:
enough fuel for `dfs` never to hit zero. -/
def fuel_bound (g : Graph) : Nat :=
  g.foldl (fun n p => n + 1 + p.2.length) 1

/-- The loop body of `LongestPath::find_longest_paths`, with the start-vertex
order `vs` made explicit (the C++ hash map iterates in an unspecified order). -/
def run_search (g : Graph) (vs : List String) : SearchRes :=
  vs.foldl (fun res v => dfs g (fuel_bound g) v [] [] res) (SearchRes.mk 0 [])

/-- `LongestPath::find_longest_paths` (the search core; the progress-thread
scaffolding around it produces no data). -/
def find_longest_paths (g : Graph) : SearchRes :=
  run_search g (get_vertices g)

/-- `LongestPath::get_all_longest_paths`. -/
def get_all_longest_paths (r : SearchRes) : List (List String) := r.longest_paths

/-- `LongestPath::get_max_length`. -/
def get_max_length (r : SearchRes) : Nat := r.max_length

/-- `print_path`, as the string written to `cout` (without the final `endl`):
`path[0].substr(0,4)`, then `substr(0,2) ++ substr(2,2)` of every later
element, then `path.back().substr(4,2)`; nothing for the empty path. -/
def print_path : List String → String
  | [] => ""
  | v0 :: rest =>
    v0.take 4
      ++ String.join (rest.map (fun v => v.take 2 ++ (v.drop 2).take 2))
      ++ ((rest.getLastD v0).drop 4).take 2

/-- The spec's reconstruction rule, stated in its own words: for a path
`[v0, …, vk]`, the string `first4 v0 ++ … ++ first4 vk ++ last2 vk`. -/
def reconstruct : List String → String
  | [] => ""
  | v0 :: rest => String.join ((v0 :: rest).map first4) ++ last2 (rest.getLastD v0)

/-- Edge relation of a graph: `b` occurs in the neighbor list of `a`. -/
def IsEdge (g : Graph) (a b : String) : Prop := b ∈ get_neighbors g a

/-- Invariant of the search state: every recorded path has length
`max_length`, repeats no vertex, and follows the graph's edges. -/
def GoodRes (g : Graph) (res : SearchRes) : Prop :=
  ∀ p ∈ res.longest_paths, p.length = res.max_length ∧ p.Nodup ∧ List.Chain' (IsEdge g) p

theorem get_neighbors_nil (u : String) : get_neighbors [] u = [] := rfl

theorem get_neighbors_cons (k : String) (vs : List String) (rest : Graph) (u : String) :
    get_neighbors ((k, vs) :: rest) u = if k = u then vs else get_neighbors rest u := by
  by_cases h : k = u
  · have hb : (k == u) = true := beq_iff_eq.mpr h
    simp [get_neighbors, List.find?, hb, h]
  · have hb : (k == u) = false := by simp [h]
    simp [get_neighbors, List.find?, hb, h]

theorem get_neighbors_add_edge (g : Graph) (f t u : String) :
    get_neighbors (add_edge g f t) u =
      if u = f then get_neighbors g u ++ [t] else get_neighbors g u := by
  induction g with
  | nil =>
    simp only [add_edge, get_neighbors_cons, get_neighbors_nil]
    by_cases h : u = f
    · simp [h]
    · have h2 : ¬ f = u := fun hh => h hh.symm
      simp [h, h2]
  | cons p rest ih =>
    obtain ⟨k, vs⟩ := p
    simp only [add_edge]
    by_cases hkf : k = f
    · simp only [if_pos hkf, get_neighbors_cons]
      by_cases hku : k = u
      · have huf : u = f := hku.symm.trans hkf
        simp [hku, huf]
      · have huf : ¬ u = f := fun hh => hku (hkf.trans hh.symm)
        simp [hku, huf]
    · simp only [if_neg hkf, get_neighbors_cons]
      by_cases hku : k = u
      · have huf : ¬ u = f := fun hh => hkf (hku.trans hh)
        simp [hku, huf]
      · simp [hku, ih]

theorem mem_neighbors_step (g : Graph) (f t u v : String) :
    v ∈ get_neighbors (if f ≠ t ∧ last2 f = first2 t then add_edge g f t else g) u ↔
      v ∈ get_neighbors g u ∨ (u = f ∧ v = t ∧ u ≠ v ∧ last2 u = first2 v) := by
  by_cases hc : f ≠ t ∧ last2 f = first2 t
  · rw [if_pos hc, get_neighbors_add_edge]
    by_cases huf : u = f
    · rw [if_pos huf, List.mem_append, List.mem_singleton]
      constructor
      · rintro (h | rfl)
        · exact Or.inl h
        · have h1 : u ≠ v := by rw [huf]; exact hc.1
          have h2 : last2 u = first2 v := by rw [huf]; exact hc.2
          exact Or.inr ⟨huf, rfl, h1, h2⟩
      · rintro (h | ⟨_, rfl, _, _⟩)
        · exact Or.inl h
        · exact Or.inr rfl
    · rw [if_neg huf]
      constructor
      · exact Or.inl
      · rintro (h | ⟨huf2, _, _, _⟩)
        · exact h
        · exact absurd huf2 huf
  · rw [if_neg hc]
    constructor
    · exact Or.inl
    · rintro (h | ⟨rfl, rfl, hne, heq⟩)
      · exact h
      · exact absurd ⟨hne, heq⟩ hc

theorem mem_neighbors_inner (f : String) (ts : List String) (g : Graph) (u v : String) :
    v ∈ get_neighbors
        (ts.foldl (fun g2 t => if f ≠ t ∧ last2 f = first2 t then add_edge g2 f t else g2) g) u ↔
      v ∈ get_neighbors g u ∨ (u = f ∧ v ∈ ts ∧ u ≠ v ∧ last2 u = first2 v) := by
  induction ts generalizing g with
  | nil => simp
  | cons t ts ih =>
    simp only [List.foldl_cons]
    rw [ih, mem_neighbors_step]
    simp only [List.mem_cons]
    constructor
    · rintro ((h | ⟨h1, h2, h3, h4⟩) | ⟨h1, h2, h3, h4⟩)
      · exact Or.inl h
      · exact Or.inr ⟨h1, Or.inl h2, h3, h4⟩
      · exact Or.inr ⟨h1, Or.inr h2, h3, h4⟩
    · rintro (h | ⟨h1, h2 | h2, h3, h4⟩)
      · exact Or.inl (Or.inl h)
      · exact Or.inl (Or.inr ⟨h1, h2, h3, h4⟩)
      · exact Or.inr ⟨h1, h2, h3, h4⟩

theorem mem_neighbors_outer (numbers : List String) (fs : List String) (g : Graph)
    (u v : String) :
    v ∈ get_neighbors
        (fs.foldl
          (fun g2 fr =>
            numbers.foldl
              (fun g3 t => if fr ≠ t ∧ last2 fr = first2 t then add_edge g3 fr t else g3) g2)
          g) u ↔
      v ∈ get_neighbors g u ∨ (u ∈ fs ∧ v ∈ numbers ∧ u ≠ v ∧ last2 u = first2 v) := by
  induction fs generalizing g with
  | nil => simp
  | cons fr fs ih =>
    simp only [List.foldl_cons, ih, mem_neighbors_inner, List.mem_cons]
    tauto

theorem mem_neighbors_build (numbers : List String) (u v : String) :
    v ∈ get_neighbors (build_graph numbers) u ↔
      u ∈ numbers ∧ v ∈ numbers ∧ u ≠ v ∧ last2 u = first2 v := by
  have h := mem_neighbors_outer numbers numbers [] u v
  simp only [build_graph] at *
  simp only [h, get_neighbors_nil, List.not_mem_nil, false_or]

theorem record_path_good {g : Graph} {path : List String} {res : SearchRes}
    (h1 : path.Nodup) (h2 : List.Chain' (IsEdge g) path) (h : GoodRes g res) :
    GoodRes g (record_path path res) := by
  unfold record_path
  split
  · intro p hp
    simp only [List.mem_singleton] at hp
    subst hp
    exact ⟨rfl, h1, h2⟩
  · split
    · intro p hp
      rcases List.mem_append.mp hp with hold | hnew
      · exact h p hold
      · simp only [List.mem_singleton] at hnew
        subst hnew
        rename_i hle heq
        exact ⟨heq, h1, h2⟩
    · exact h

theorem dfs_good (fuel : Nat) :
    ∀ (g : Graph) (current : String) (visited path : List String) (res : SearchRes),
      (∀ x ∈ path, x ∈ visited) → current ∉ visited → path.Nodup →
      List.Chain' (IsEdge g) (path ++ [current]) →
      GoodRes g res → GoodRes g (dfs g fuel current visited path res) := by
  induction fuel with
  | zero =>
    intro g current visited path res _ _ _ _ hres
    exact hres
  | succ fuel ih =>
    intro g current visited path res hsub hcur hnd hchain hres
    have hnd' : (path ++ [current]).Nodup := by
      rw [List.nodup_append]
      refine ⟨hnd, List.nodup_singleton current, ?_⟩
      intro x hx hxc
      rw [List.mem_singleton] at hxc
      subst hxc
      exact hcur (hsub x hx)
    have hres' : GoodRes g (record_path (path ++ [current]) res) :=
      record_path_good hnd' hchain hres
    have hsub' : ∀ x ∈ path ++ [current], x ∈ current :: visited := by
      intro x hx
      rcases List.mem_append.mp hx with h | h
      · exact List.mem_cons_of_mem _ (hsub x h)
      · rw [List.mem_singleton] at h
        subst h
        exact List.mem_cons_self _ _
    simp only [dfs]
    have key : ∀ (ns : List String), (∀ n ∈ ns, n ∈ get_neighbors g current) →
        ∀ r : SearchRes, GoodRes g r →
        GoodRes g (ns.foldl
          (fun r n =>
            if n ∈ current :: visited then r
            else dfs g fuel n (current :: visited) (path ++ [current]) r) r) := by
      intro ns
      induction ns with
      | nil =>
        intro _ r hr
        simpa using hr
      | cons n ns ihn =>
        intro hmem r hr
        simp only [List.foldl_cons]
        apply ihn (fun m hm => hmem m (List.mem_cons_of_mem _ hm))
        by_cases hnv : n ∈ current :: visited
        · simpa [hnv] using hr
        · rw [if_neg hnv]
          refine ih g n (current :: visited) (path ++ [current]) r hsub' hnv hnd' ?_ hr
          rw [List.chain'_append]
          refine ⟨hchain, List.chain'_singleton n, ?_⟩
          intro x hx y hy
          simp only [List.getLast?_concat, Option.mem_def, Option.some.injEq] at hx
          simp only [List.head?_cons, Option.mem_def, Option.some.injEq] at hy
          subst hx
          subst hy
          exact hmem n (List.mem_cons_self n ns)
    exact key (get_neighbors g current) (fun n hn => hn) _ hres'

theorem run_search_good (g : Graph) (vs : List String) : GoodRes g (run_search g vs) := by
  unfold run_search
  have key : ∀ (ws : List String) (res : SearchRes), GoodRes g res →
      GoodRes g (ws.foldl (fun res v => dfs g (fuel_bound g) v [] [] res) res) := by
    intro ws
    induction ws with
    | nil =>
      intro res h
      simpa using h
    | cons w ws ihw =>
      intro res h
      simp only [List.foldl_cons]
      refine ihw _ (dfs_good (fuel_bound g) g w [] [] res ?_ ?_ ?_ ?_ h)
      · intro x hx
        exact absurd hx (List.not_mem_nil x)
      · exact List.not_mem_nil w
      · exact List.nodup_nil
      · rw [List.nil_append]
        exact List.chain'_singleton w
  exact key vs (SearchRes.mk 0 []) (fun p hp => absurd hp (List.not_mem_nil p))

theorem list_take_two_drop_two (l : List Char) :
    l.take 2 ++ (l.drop 2).take 2 = l.take 4 := by
  match l with
  | [] => rfl
  | [a] => rfl
  | [a, b] => rfl
  | [a, b, c] => rfl
  | a :: b :: c :: d :: rest => rfl

theorem take_two_append_mid (v : String) : v.take 2 ++ (v.drop 2).take 2 = v.take 4 := by
  apply String.ext
  simp only [String.data_append, String.data_take, String.data_drop]
  exact list_take_two_drop_two v.data

theorem drop_four_take_two (s : String) (h : s.length = 6) :
    (s.drop 4).take 2 = last2 s := by
  apply String.ext
  have hl : s.data.length = 6 := h
  simp only [last2, String.data_take, String.data_drop, h]
  rw [show (6 : Nat) - 2 = 4 from rfl]
  apply List.take_of_length_le
  simp [hl]

/-- Claim C1 (code-bug evidence): on input `["123456", "123456"]` the built
graph has no vertex at all — a vertex only enters `adj_list` when `add_edge`
gives it an outgoing edge, and equal strings never produce an edge — so the
search yields `max_length = 0` and an empty path collection, not the claimed
one vertex, `max_length = 1` and single path `["123456"]`. -/
theorem isolated_vertex_dropped :
    get_vertices (build_graph ["123456", "123456"]) = [] ∧
    find_longest_paths (build_graph ["123456", "123456"]) = SearchRes.mk 0 [] :=
  ⟨rfl, rfl⟩

/-- Claim C2 (counterexample): on input `["111122", "221111", "221133"]` the
overlap rule also creates the edge 221111→111122 (suffix "11" = its prefix),
so the search finds a single longest path of length 3, not two tied paths of
length 2. -/
theorem fork_tie_counterexample :
    get_max_length (find_longest_paths (build_graph ["111122", "221111", "221133"])) ≠ 2 ∧
    find_longest_paths (build_graph ["111122", "221111", "221133"]) =
      SearchRes.mk 3 [["221111", "111122", "221133"]] :=
  ⟨by decide, by decide⟩

/-- Claim C2 (amended): for input `["111122", "221111", "221133"]` the graph
has exactly the two vertices 111122 and 221111, and in either iteration order
of those start vertices the search produces `max_length = 3` and exactly one
path `[221111, 111122, 221133]`. -/
theorem fork_tie_amended (vs : List String)
    (hvs : vs = ["111122", "221111"] ∨ vs = ["221111", "111122"]) :
    get_vertices (build_graph ["111122", "221111", "221133"]) = ["111122", "221111"] ∧
    run_search (build_graph ["111122", "221111", "221133"]) vs =
      SearchRes.mk 3 [["221111", "111122", "221133"]] := by
  rcases hvs with h | h
  · subst h
    exact ⟨by decide, by decide⟩
  · subst h
    exact ⟨by decide, by decide⟩

theorem fork_tie_amended_witness :
    ((["111122", "221111"] : List String) = ["111122", "221111"] ∨
      (["111122", "221111"] : List String) = ["221111", "111122"]) ∧
    (get_vertices (build_graph ["111122", "221111", "221133"]) = ["111122", "221111"] ∧
      run_search (build_graph ["111122", "221111", "221133"]) ["111122", "221111"] =
        SearchRes.mk 3 [["221111", "111122", "221133"]]) :=
  ⟨Or.inl rfl, fork_tie_amended ["111122", "221111"] (Or.inl rfl)⟩

/-- Claim C3: for codes `u ≠ v` occurring in the input, the built graph has
the edge u→v iff the last 2 characters of `u` equal the first 2 of `v`; and
no self-loop `u→u` is ever created. -/
theorem edge_iff_overlap (numbers : List String) (u v : String)
    (_h6 : ∀ s ∈ numbers, s.length = 6) (hu : u ∈ numbers) (hv : v ∈ numbers) :
    (u ≠ v → (v ∈ get_neighbors (build_graph numbers) u ↔ last2 u = first2 v)) ∧
    u ∉ get_neighbors (build_graph numbers) u := by
  constructor
  · intro hne
    rw [mem_neighbors_build]
    constructor
    · rintro ⟨_, _, _, h⟩
      exact h
    · intro h
      exact ⟨hu, hv, hne, h⟩
  · rw [mem_neighbors_build]
    rintro ⟨_, _, h, _⟩
    exact h rfl

theorem edge_iff_overlap_witness :
    ("123456" : String).length = 6 ∧ ("567890" : String).length = 6 ∧
    ((("123456" : String) ≠ "567890" →
        (("567890" : String) ∈ get_neighbors (build_graph ["123456", "567890"]) "123456" ↔
          last2 "123456" = first2 "567890")) ∧
      ("123456" : String) ∉ get_neighbors (build_graph ["123456", "567890"]) "123456") :=
  ⟨rfl, rfl,
    edge_iff_overlap ["123456", "567890"] "123456" "567890" (by decide) (by decide) (by decide)⟩

/-- Claim C4 (code-bug evidence): the duplicated input value makes
`build_graph` push the same edge twice, and the DFS then records the same
longest path twice, so the result collection has duplicate entries. -/
theorem duplicate_input_duplicate_paths :
    find_longest_paths (build_graph ["123456", "567890", "123456"]) =
      SearchRes.mk 2 [["123456", "567890"], ["123456", "567890"]] ∧
    ¬ (get_all_longest_paths
        (find_longest_paths (build_graph ["123456", "567890", "123456"]))).Nodup :=
  ⟨by decide, by decide⟩

/-- Claim C5: after the search, every recorded path has length exactly
`get_max_length`. -/
theorem result_length_eq_max (numbers : List String) (p : List String)
    (hp : p ∈ get_all_longest_paths (find_longest_paths (build_graph numbers))) :
    p.length = get_max_length (find_longest_paths (build_graph numbers)) :=
  (run_search_good (build_graph numbers) (get_vertices (build_graph numbers)) p hp).1

theorem result_length_eq_max_witness :
    (["123456", "567890"] : List String) ∈
        get_all_longest_paths (find_longest_paths (build_graph ["123456", "567890"])) ∧
      (["123456", "567890"] : List String).length =
        get_max_length (find_longest_paths (build_graph ["123456", "567890"])) :=
  ⟨by decide, result_length_eq_max ["123456", "567890"] ["123456", "567890"] (by decide)⟩

/-- Claim C6: every path in the final result collection is simple — no code
value occurs twice within one returned path. -/
theorem result_paths_simple (numbers : List String) (p : List String)
    (hp : p ∈ get_all_longest_paths (find_longest_paths (build_graph numbers))) :
    p.Nodup :=
  (run_search_good (build_graph numbers) (get_vertices (build_graph numbers)) p hp).2.1

theorem result_paths_simple_witness :
    (["123456", "567890"] : List String) ∈
        get_all_longest_paths (find_longest_paths (build_graph ["123456", "567890"])) ∧
      (["123456", "567890"] : List String).Nodup :=
  ⟨by decide, result_paths_simple ["123456", "567890"] ["123456", "567890"] (by decide)⟩

/-- Claim C7: within any returned path, every pair of consecutive codes
overlaps: the last 2 characters of the earlier code equal the first 2
characters of the later one. -/
theorem result_paths_chained (numbers : List String) (p : List String)
    (hp : p ∈ get_all_longest_paths (find_longest_paths (build_graph numbers))) :
    List.Chain' (fun a b => last2 a = first2 b) p :=
  List.Chain'.imp
    (fun a b hab => ((mem_neighbors_build numbers a b).mp hab).2.2.2)
    (run_search_good (build_graph numbers) (get_vertices (build_graph numbers)) p hp).2.2

theorem result_paths_chained_witness :
    (["123456", "567890"] : List String) ∈
        get_all_longest_paths (find_longest_paths (build_graph ["123456", "567890"])) ∧
      List.Chain' (fun a b => last2 a = first2 b) ["123456", "567890"] :=
  ⟨by decide, result_paths_chained ["123456", "567890"] ["123456", "567890"] (by decide)⟩

/-- Claim C8: for a non-empty path of 6-character codes, `print_path` writes
exactly `first4 v0 ++ … ++ first4 vk ++ last2 vk`. -/
theorem print_path_eq_reconstruct (p : List String) (hne : p ≠ [])
    (h6 : ∀ s ∈ p, s.length = 6) :
    print_path p = reconstruct p := by
  match p, hne with
  | v0 :: rest, _ =>
    have h6l : (rest.getLastD v0).length = 6 := h6 _ (List.getLastD_mem_cons rest v0)
    have hlast := congrArg String.data (drop_four_take_two _ h6l)
    simp only [String.data_take, String.data_drop] at hlast
    apply String.ext
    simp only [print_path, reconstruct, String.data_append, String.data_join, List.map_cons,
      List.map_map, List.flatten_cons, Function.comp_def, String.data_take, String.data_drop,
      first4, list_take_two_drop_two, List.append_assoc, hlast]

theorem print_path_eq_reconstruct_witness :
    (["123456", "567890"] : List String) ≠ [] ∧
    print_path ["123456", "567890"] = "1234567890" ∧
    reconstruct ["123456", "567890"] = "1234567890" := by
  refine ⟨by decide, ?_, by decide⟩
  have h := print_path_eq_reconstruct ["123456", "567890"] (by decide) (by decide)
  rw [h]
  decide

/-- Claim C9: the empty input builds the empty graph, and searching it
terminates with `max_length = 0` and no paths. -/
theorem empty_input_empty_result :
    build_graph [] = [] ∧ get_vertices (build_graph []) = [] ∧
    find_longest_paths (build_graph []) = SearchRes.mk 0 [] :=
  ⟨rfl, rfl, rfl⟩

/-- Claim C10: `print_path` on the empty path is total and produces no
output. -/
theorem print_path_empty : print_path [] = "" := rfl
